import Mathlib

/-!
Verification of the Caliper memory pool (`src/caliper/MemoryPool.cpp`).

The C++ `MemoryPool::MemoryPoolImpl` keeps a vector of chunks, each a
`uint64_t` buffer with a slot capacity (`size`) and a high-water mark
(`wmark`), plus the index of the current chunk.  All sizes are `size_t`
values, so arithmetic is modulo `2^64`.  We embed the state as a Lean
structure over `Nat` with the modulus made explicit, and the operations
`expand` and `allocate` as pure state transformers.  A returned pointer is
modelled as a pair (chunk index, slot offset inside that chunk); `nullptr`
is `none`.
-/

namespace Caliper

/-- Modulus of `size_t` arithmetic (64-bit). -/
def U64 : Nat := 2 ^ 64

/-- Size in bytes of one slot (`sizeof(uint64_t)`). -/
def wordSize : Nat := 8

/-- The member `const size_t chunksize = 64 * 1024;` — the minimum chunk
capacity, in slots, used by `expand`. -/
def chunksize : Nat := 64 * 1024

/-- Slot count computed by both `allocate` and `expand`:
`(bytes + sizeof(uint64_t) - 1) / sizeof(uint64_t)` in `size_t`
arithmetic, so the addition wraps modulo `2^64`. -/
def slots (bytes : Nat) : Nat := ((bytes + (wordSize - 1)) % U64) / wordSize

/-- One chunk: `{ T* ptr; size_t wmark; size_t size; }`.  The buffer
contents are irrelevant to the claims, so only `wmark` and `size` are
kept; the buffer identity is the position of the chunk in the arena. -/
structure Chunk where
  wmark : Nat
  size : Nat
deriving DecidableEq, Repr

/-- Pool state: `vector<Chunk> m_chunks; size_t m_index;`. -/
structure Pool where
  chunks : List Chunk
  index : Nat
deriving DecidableEq, Repr

/-- Default chunk used to read `m_chunks[m_index]`; every reachable state
has `m_index` in range, so the default is never observed there. -/
def emptyChunk : Chunk := ⟨0, 0⟩

/-- The chunk `m_chunks[m_index]`. -/
def curChunk (p : Pool) : Chunk := p.chunks.getD p.index emptyChunk

/-- Embedding of `MemoryPoolImpl::expand(size_t bytes)`:
`len = max((bytes+sizeof(uint64_t)-1)/sizeof(uint64_t), chunksize);`
push a fresh chunk of capacity `len`, point `m_index` at it. -/
def expand (p : Pool) (bytes : Nat) : Pool :=
  let len := max (slots bytes) chunksize
  let chunks := p.chunks ++ [{ wmark := 0, size := len }]
  { chunks := chunks, index := chunks.length - 1 }

/-- Pointer returned by an allocation: chunk index and slot offset of the
start of the region inside that chunk buffer. -/
abbrev Addr := Nat × Nat

/-- Tail of `MemoryPoolImpl::allocate`: read the pointer at the current
high-water mark and advance the mark by `n` slots (`size_t` addition). -/
def bump (p : Pool) (n : Nat) : Option Addr × Pool :=
  let c := curChunk p
  (some (p.index, c.wmark),
    { p with chunks := p.chunks.set p.index { c with wmark := (c.wmark + n) % U64 } })

/-- Embedding of `MemoryPoolImpl::allocate(size_t bytes, bool can_expand)`:
if there is no current chunk (`m_index == m_chunks.size()`) or the current
chunk lacks room (`wmark + n > size`, in `size_t` arithmetic), then either
expand (when allowed) or return `nullptr`; afterwards bump the current
chunk. -/
def allocate (p : Pool) (bytes : Nat) (canExpand : Bool) : Option Addr × Pool :=
  let n := slots bytes
  if p.index = p.chunks.length ∨ ((curChunk p).wmark + n) % U64 > (curChunk p).size then
    if canExpand then bump (expand p bytes) n
    else (none, p)
  else
    bump p n

/-- Embedding of the `MemoryPoolImpl` constructor: `m_index = 0`, then
`expand(pool_size)`. -/
def mkPool (poolSize : Nat) : Pool :=
  expand { chunks := [], index := 0 } poolSize

/-- Default of the `pool_size` configuration entry: `"2097152"` bytes. -/
def defaultPoolSize : Nat := 2097152

/-- Run a sequence of allocation requests left to right with a fixed
expand permission, collecting the returned pointers. -/
def runAlloc (canExpand : Bool) (p : Pool) : List Nat → List (Option Addr) × Pool
  | [] => ([], p)
  | b :: bs =>
    let rp := allocate p b canExpand
    let rest := runAlloc canExpand rp.2 bs
    (rp.1 :: rest.1, rest.2)

/-- A returned byte region: chunk identity, start byte offset within the
chunk buffer, and byte length (the word-rounded request size). -/
abbrev Region := Nat × Nat × Nat

/-- Region delivered by a successful request of `bytes` bytes answered at
address `a`. -/
def regionOf (a : Addr) (bytes : Nat) : Region :=
  (a.1, wordSize * a.2, wordSize * slots bytes)

/-- Two regions do not overlap: they live in distinct chunk buffers, or
their half-open byte intervals are ordered. -/
def RegDisjoint (r s : Region) : Prop :=
  r.1 ≠ s.1 ∨ r.2.1 + r.2.2 ≤ s.2.1 ∨ s.2.1 + s.2.2 ≤ r.2.1

/-- Regions of the successful results of a run, paired with the request
sizes that produced them. -/
def regionsOf (rs : List (Option Addr)) (bs : List Nat) : List Region :=
  (rs.zip bs).filterMap fun rb => rb.1.map fun a => regionOf a rb.2

/-- Well-formed chunk: the high-water mark is within capacity, and the
capacity is small enough that slot arithmetic cannot wrap (every chunk
`expand` ever builds has capacity below `2^61`). -/
def ChunkOk (c : Chunk) : Prop := c.wmark ≤ c.size ∧ c.size < 2 ^ 61

/-- Pool invariant: the current index is in range and every chunk is
well formed. -/
def PoolInv (p : Pool) : Prop :=
  p.index < p.chunks.length ∧ ∀ c ∈ p.chunks, ChunkOk c

instance (c : Chunk) : Decidable (ChunkOk c) :=
  inferInstanceAs (Decidable (_ ∧ _))

instance (p : Pool) : Decidable (PoolInv p) :=
  inferInstanceAs (Decidable (_ ∧ _))

/-- Start offsets (in slots) of a sequence of requests all served from one
chunk whose high-water mark starts at `w`. -/
def offsets (w : Nat) : List Nat → List Nat
  | [] => []
  | b :: bs => w :: offsets (w + slots b) bs

/-- A region already handed out is consistent with the pool state: it
lives in an existing chunk and ends at or below the byte offset of that
chunk high-water mark. -/
def RegOk (p : Pool) (r : Region) : Prop :=
  r.1 < p.chunks.length ∧
    r.2.1 + r.2.2 ≤ wordSize * (p.chunks.getD r.1 emptyChunk).wmark

/-- Pool state reached from a 128-byte pool after a request that fills
65530 of the 65536 slots of its initial chunk. -/
def exhaustedPool : Pool := (allocate (mkPool 128) 524240 false).2

/-! ### Basic arithmetic and state lemmas -/

theorem slots_lt (bytes : Nat) : slots bytes < 2 ^ 61 := by
  unfold slots U64 wordSize
  omega

theorem chunksize_lt : chunksize < 2 ^ 61 := by decide

theorem mkPool_eq (s : Nat) :
    mkPool s = ⟨[⟨0, max (slots s) chunksize⟩], 0⟩ := rfl

theorem expand_chunks (p : Pool) (b : Nat) :
    (expand p b).chunks = p.chunks ++ [⟨0, max (slots b) chunksize⟩] := rfl

theorem expand_index (p : Pool) (b : Nat) :
    (expand p b).index = p.chunks.length := by
  unfold expand
  simp

theorem curChunk_expand (p : Pool) (b : Nat) :
    curChunk (expand p b) = ⟨0, max (slots b) chunksize⟩ := by
  unfold curChunk
  rw [expand_chunks, expand_index, List.getD_eq_getElem?_getD,
    List.getElem?_concat_length]
  rfl

theorem curChunk_mem (p : Pool) (h : p.index < p.chunks.length) :
    curChunk p ∈ p.chunks := by
  unfold curChunk
  rw [List.getD_eq_getElem?_getD, List.getElem?_eq_getElem h]
  exact List.getElem_mem h

theorem curChunk_ok (p : Pool) (h : PoolInv p) : ChunkOk (curChunk p) :=
  h.2 _ (curChunk_mem p h.1)

theorem wmark_add_lt (p : Pool) (b : Nat) (h : PoolInv p) :
    (curChunk p).wmark + slots b < U64 := by
  have h1 := slots_lt b
  have h2 := (curChunk_ok p h).1
  have h3 := (curChunk_ok p h).2
  unfold U64
  omega

/-- Case of `allocate` where the current chunk has room: the pointer is at
the current high-water mark and the mark advances by the slot count. -/
theorem allocate_fit (p : Pool) (b : Nat) (ce : Bool) (hp : PoolInv p)
    (hfit : (curChunk p).wmark + slots b ≤ (curChunk p).size) :
    allocate p b ce =
      (some (p.index, (curChunk p).wmark),
        ⟨p.chunks.set p.index ⟨(curChunk p).wmark + slots b, (curChunk p).size⟩,
          p.index⟩) := by
  have hmod : ((curChunk p).wmark + slots b) % U64 = (curChunk p).wmark + slots b :=
    Nat.mod_eq_of_lt (wmark_add_lt p b hp)
  unfold allocate
  rw [if_neg]
  · unfold bump
    simp only [hmod]
  · push_neg
    refine ⟨Nat.ne_of_lt hp.1, ?_⟩
    rw [hmod]
    omega

/-- Case of `allocate` where the room is lacking and expansion is
forbidden: return the null sentinel and leave the pool untouched. -/
theorem allocate_noexpand (p : Pool) (b : Nat) (hp : PoolInv p)
    (hlack : (curChunk p).size < (curChunk p).wmark + slots b) :
    allocate p b false = (none, p) := by
  have hmod : ((curChunk p).wmark + slots b) % U64 = (curChunk p).wmark + slots b :=
    Nat.mod_eq_of_lt (wmark_add_lt p b hp)
  unfold allocate
  rw [if_pos]
  · rfl
  · exact Or.inr (by rw [hmod]; omega)

/-- Case of `allocate` where the room is lacking and expansion is allowed:
one fresh chunk of capacity `max n chunksize` is appended, becomes
current, and serves the request at offset 0. -/
theorem allocate_grow (p : Pool) (b : Nat) (hp : PoolInv p)
    (hlack : (curChunk p).size < (curChunk p).wmark + slots b) :
    allocate p b true =
      (some (p.chunks.length, 0),
        { chunks := p.chunks ++ [⟨slots b, max (slots b) chunksize⟩],
          index := p.chunks.length }) := by
  have hmod : ((curChunk p).wmark + slots b) % U64 = (curChunk p).wmark + slots b :=
    Nat.mod_eq_of_lt (wmark_add_lt p b hp)
  have hmodn : (0 + slots b) % U64 = slots b := by
    rw [Nat.zero_add]
    exact Nat.mod_eq_of_lt (lt_trans (slots_lt b) (by decide))
  unfold allocate
  rw [if_pos (Or.inr (by rw [hmod]; omega))]
  show bump (expand p b) (slots b) = _
  unfold bump
  rw [curChunk_expand, expand_index]
  simp only [expand_chunks]
  rw [List.set_append]
  simp only [lt_irrefl, if_false, Nat.sub_self]
  show (_, ({ chunks := p.chunks ++ [⟨(0 + slots b) % U64, _⟩], index := _ } : Pool)) = _
  rw [hmodn]

/-! ### Invariant preservation -/

theorem chunkOk_new (b : Nat) : ChunkOk ⟨0, max (slots b) chunksize⟩ := by
  constructor
  · exact Nat.zero_le _
  · exact max_lt (slots_lt b) chunksize_lt

theorem poolInv_expand (p : Pool) (b : Nat) (h : ∀ c ∈ p.chunks, ChunkOk c) :
    PoolInv (expand p b) := by
  constructor
  · rw [expand_index, expand_chunks]
    simp
  · rw [expand_chunks]
    intro c hc
    rcases List.mem_append.1 hc with hc | hc
    · exact h c hc
    · rw [List.mem_singleton.1 hc]
      exact chunkOk_new b

theorem poolInv_mkPool (s : Nat) : PoolInv (mkPool s) :=
  poolInv_expand _ s (by simp)

theorem poolInv_allocate (p : Pool) (b : Nat) (ce : Bool) (hp : PoolInv p) :
    PoolInv (allocate p b ce).2 := by
  rcases le_or_lt ((curChunk p).wmark + slots b) (curChunk p).size with hfit | hlack
  · rw [allocate_fit p b ce hp hfit]
    constructor
    · rw [List.length_set]
      exact hp.1
    · intro c hc
      rcases List.mem_or_eq_of_mem_set hc with hc | hc
      · exact hp.2 c hc
      · subst hc
        exact ⟨hfit, (curChunk_ok p hp).2⟩
  · cases ce
    · rw [allocate_noexpand p b hp hlack]
      exact hp
    · rw [allocate_grow p b hp hlack]
      constructor
      · simp
      · intro c hc
        rcases List.mem_append.1 hc with hc | hc
        · exact hp.2 c hc
        · rw [List.mem_singleton.1 hc]
          exact ⟨le_max_left _ _, max_lt (slots_lt b) chunksize_lt⟩

theorem getD_eq_curChunk (p : Pool) :
    p.chunks.getD p.index emptyChunk = curChunk p := rfl

theorem getD_set_self {l : List Chunk} {i : Nat} (x : Chunk) (h : i < l.length) :
    (l.set i x).getD i emptyChunk = x := by
  rw [List.getD_eq_getElem?_getD, List.getElem?_set_self h]
  rfl

theorem getD_set_ne {l : List Chunk} {i j : Nat} (x : Chunk) (h : i ≠ j) :
    (l.set i x).getD j emptyChunk = l.getD j emptyChunk := by
  rw [List.getD_eq_getElem?_getD, List.getElem?_set_ne h, ← List.getD_eq_getElem?_getD]

theorem getD_append_left {l l2 : List Chunk} {i : Nat} (h : i < l.length) :
    (l ++ l2).getD i emptyChunk = l.getD i emptyChunk := by
  rw [List.getD_eq_getElem?_getD, List.getElem?_append_left h, ← List.getD_eq_getElem?_getD]

theorem getD_concat_length (l : List Chunk) (x : Chunk) :
    (l ++ [x]).getD l.length emptyChunk = x := by
  rw [List.getD_eq_getElem?_getD, List.getElem?_concat_length]
  rfl

theorem wmark_mono_expand (p : Pool) (b : Nat) (i : Nat) (hi : i < p.chunks.length) :
    (p.chunks.getD i emptyChunk).wmark ≤ ((expand p b).chunks.getD i emptyChunk).wmark := by
  rw [expand_chunks, getD_append_left hi]

theorem wmark_mono_allocate (p : Pool) (b : Nat) (ce : Bool) (hp : PoolInv p)
    (i : Nat) (hi : i < p.chunks.length) :
    (p.chunks.getD i emptyChunk).wmark ≤ ((allocate p b ce).2.chunks.getD i emptyChunk).wmark := by
  rcases le_or_lt ((curChunk p).wmark + slots b) (curChunk p).size with hfit | hlack
  · rw [allocate_fit p b ce hp hfit]
    show (p.chunks.getD i emptyChunk).wmark ≤ ((p.chunks.set p.index _).getD i emptyChunk).wmark
    by_cases hip : i = p.index
    · rw [hip, getD_set_self _ hp.1, getD_eq_curChunk p]
      exact Nat.le_add_right _ _
    · rw [getD_set_ne _ (fun h => hip h.symm)]
  · cases ce
    · rw [allocate_noexpand p b hp hlack]
    · rw [allocate_grow p b hp hlack]
      show (p.chunks.getD i emptyChunk).wmark ≤ ((p.chunks ++ _).getD i emptyChunk).wmark
      rw [getD_append_left hi]

/-- Setting the current chunk back to itself is a no-op (used for requests
that consume zero slots). -/
theorem set_curChunk (p : Pool) (hp : p.index < p.chunks.length) :
    p.chunks.set p.index (curChunk p) = p.chunks := by
  apply List.ext_getElem?
  intro n
  by_cases hn : n = p.index
  · subst hn
    rw [List.getElem?_set_self hp, List.getElem?_eq_getElem hp]
    unfold curChunk
    rw [List.getD_eq_getElem?_getD, List.getElem?_eq_getElem hp]
    rfl
  · rw [List.getElem?_set_ne (fun h => hn h.symm)]

/-! ### Allocation runs -/

theorem runAlloc_nil (ce : Bool) (p : Pool) : runAlloc ce p [] = ([], p) := rfl

theorem runAlloc_cons (ce : Bool) (p : Pool) (b : Nat) (bs : List Nat) :
    runAlloc ce p (b :: bs) =
      ((allocate p b ce).1 :: (runAlloc ce (allocate p b ce).2 bs).1,
        (runAlloc ce (allocate p b ce).2 bs).2) := rfl

theorem le_offsets (bs : List Nat) :
    ∀ w, ∀ o ∈ offsets w bs, w ≤ o := by
  induction bs with
  | nil =>
    intro w o ho
    simp [offsets] at ho
  | cons b bs ih =>
    intro w o ho
    rw [offsets] at ho
    rcases List.mem_cons.1 ho with h | h
    · omega
    · exact le_trans (Nat.le_add_right w _) (ih _ o h)

theorem offsets_zip_pairwise (bs : List Nat) :
    ∀ w, ((offsets w bs).zip bs).Pairwise fun x y => x.1 + slots x.2 ≤ y.1 := by
  induction bs with
  | nil =>
    intro w
    simp [offsets]
  | cons b bs ih =>
    intro w
    rw [offsets, List.zip_cons_cons]
    refine List.Pairwise.cons ?_ (ih _)
    intro y hy
    have h1 := (List.of_mem_zip hy).1
    have h2 := le_offsets bs _ y.1 h1
    simpa using h2

theorem offsets_length (bs : List Nat) : ∀ w, (offsets w bs).length = bs.length := by
  induction bs with
  | nil => intro w; rfl
  | cons b bs ih => intro w; rw [offsets]; simp [ih]

/-- A run whose rounded slot counts all fit in the single existing chunk
never grows: every request is served at the successive offsets and only
the high-water mark moves. -/
theorem runAlloc_single (ce : Bool) (cap : Nat) (bs : List Nat) (hcap : cap < 2 ^ 61) :
    ∀ w, w + (bs.map slots).sum ≤ cap →
      runAlloc ce ⟨[⟨w, cap⟩], 0⟩ bs
        = ((offsets w bs).map fun o => (some (0, o) : Option Addr),
            ⟨[⟨w + (bs.map slots).sum, cap⟩], 0⟩) := by
  induction bs with
  | nil =>
    intro w hsum
    simp [runAlloc_nil, offsets]
  | cons b bs ih =>
    intro w hsum
    rw [List.map_cons, List.sum_cons] at hsum
    have hp : PoolInv ⟨[⟨w, cap⟩], 0⟩ := by
      refine ⟨by simp, ?_⟩
      intro c hc
      rw [List.mem_singleton.1 hc]
      exact ⟨(by omega : w ≤ cap), hcap⟩
    have hcur : curChunk ⟨[⟨w, cap⟩], 0⟩ = ⟨w, cap⟩ := rfl
    have hfit : (curChunk ⟨[⟨w, cap⟩], 0⟩).wmark + slots b
        ≤ (curChunk ⟨[⟨w, cap⟩], 0⟩).size := by
      rw [hcur]
      show w + slots b ≤ cap
      omega
    rw [runAlloc_cons, allocate_fit _ b ce hp hfit]
    have hset : (⟨([⟨w, cap⟩] : List Chunk).set 0
        ⟨(curChunk ⟨[⟨w, cap⟩], 0⟩).wmark + slots b, (curChunk ⟨[⟨w, cap⟩], 0⟩).size⟩,
        (0 : Nat)⟩ : Pool) = ⟨[⟨w + slots b, cap⟩], 0⟩ := rfl
    rw [hset, ih (w + slots b) (by omega)]
    rw [offsets]
    simp [hcur, Nat.add_assoc]

/-! ### Disjointness of all returned regions -/

theorem chunks_length_allocate (p : Pool) (b : Nat) (ce : Bool) (hp : PoolInv p) :
    p.chunks.length ≤ (allocate p b ce).2.chunks.length := by
  rcases le_or_lt ((curChunk p).wmark + slots b) (curChunk p).size with hfit | hlack
  · rw [allocate_fit p b ce hp hfit]
    show p.chunks.length ≤ (p.chunks.set p.index _).length
    rw [List.length_set]
  · cases ce
    · rw [allocate_noexpand p b hp hlack]
    · rw [allocate_grow p b hp hlack]
      show p.chunks.length ≤ (p.chunks ++ _).length
      simp

theorem regOk_allocate (p : Pool) (b : Nat) (ce : Bool) (hp : PoolInv p)
    (r : Region) (h : RegOk p r) : RegOk (allocate p b ce).2 r := by
  refine ⟨lt_of_lt_of_le h.1 (chunks_length_allocate p b ce hp), ?_⟩
  exact le_trans h.2
    (Nat.mul_le_mul_left _ (wmark_mono_allocate p b ce hp r.1 h.1))

/-- The region served by a successful allocation is consistent with the
new state and disjoint from every region consistent with the old one. -/
theorem allocate_new_region (p : Pool) (b : Nat) (ce : Bool) (hp : PoolInv p)
    (a : Addr) (hres : (allocate p b ce).1 = some a) :
    RegOk (allocate p b ce).2 (regionOf a b) ∧
    ∀ r, RegOk p r → RegDisjoint r (regionOf a b) := by
  rcases le_or_lt ((curChunk p).wmark + slots b) (curChunk p).size with hfit | hlack
  · rw [allocate_fit p b ce hp hfit] at hres ⊢
    have ha : a = (p.index, (curChunk p).wmark) := by
      simpa using hres.symm
    subst ha
    constructor
    · refine ⟨?_, ?_⟩
      · show p.index < (p.chunks.set p.index _).length
        rw [List.length_set]
        exact hp.1
      · show wordSize * (curChunk p).wmark + wordSize * slots b
          ≤ wordSize * ((p.chunks.set p.index _).getD p.index emptyChunk).wmark
        rw [getD_set_self _ hp.1]
        show wordSize * (curChunk p).wmark + wordSize * slots b
          ≤ wordSize * ((curChunk p).wmark + slots b)
        rw [Nat.mul_add]
    · intro r hr
      by_cases hri : r.1 = p.index
      · refine Or.inr (Or.inl ?_)
        show r.2.1 + r.2.2 ≤ wordSize * (curChunk p).wmark
        have h2 := hr.2
        rw [hri, getD_eq_curChunk] at h2
        exact h2
      · exact Or.inl hri
  · cases ce with
    | false =>
      rw [allocate_noexpand p b hp hlack] at hres
      exact absurd hres (by simp)
    | true =>
      rw [allocate_grow p b hp hlack] at hres ⊢
      have ha : a = (p.chunks.length, 0) := by
        simpa using hres.symm
      subst ha
      constructor
      · refine ⟨?_, ?_⟩
        · show p.chunks.length < (p.chunks ++ [_]).length
          simp
        · show wordSize * 0 + wordSize * slots b
            ≤ wordSize * ((p.chunks ++ [(⟨slots b, max (slots b) chunksize⟩ : Chunk)]).getD
                p.chunks.length emptyChunk).wmark
          rw [getD_concat_length]
          show wordSize * 0 + wordSize * slots b ≤ wordSize * slots b
          omega
      · intro r hr
        exact Or.inl (Nat.ne_of_lt hr.1)

/-- Running any request sequence keeps the set of handed-out regions
pairwise disjoint. -/
theorem runAlloc_regions (ce : Bool) (bs : List Nat) :
    ∀ (p : Pool) (R : List Region), PoolInv p → (∀ r ∈ R, RegOk p r) →
      R.Pairwise RegDisjoint →
      (R ++ regionsOf (runAlloc ce p bs).1 bs).Pairwise RegDisjoint := by
  induction bs with
  | nil =>
    intro p R hp hR hpw
    simpa [runAlloc_nil, regionsOf] using hpw
  | cons b bs ih =>
    intro p R hp hR hpw
    rw [runAlloc_cons]
    have hp2 := poolInv_allocate p b ce hp
    rcases hr : (allocate p b ce).1 with _ | a
    · have hreg : regionsOf
            ((none : Option Addr) :: (runAlloc ce (allocate p b ce).2 bs).1) (b :: bs)
          = regionsOf (runAlloc ce (allocate p b ce).2 bs).1 bs := by
        unfold regionsOf
        rw [List.zip_cons_cons, List.filterMap_cons]
        rfl
      rw [hreg]
      refine ih (allocate p b ce).2 R hp2 ?_ hpw
      intro r hrm
      exact regOk_allocate p b ce hp r (hR r hrm)
    · have hreg : regionsOf
            (some a :: (runAlloc ce (allocate p b ce).2 bs).1) (b :: bs)
          = regionOf a b :: regionsOf (runAlloc ce (allocate p b ce).2 bs).1 bs := by
        unfold regionsOf
        rw [List.zip_cons_cons, List.filterMap_cons]
        rfl
      rw [hreg]
      have hassoc : R ++ regionOf a b :: regionsOf (runAlloc ce (allocate p b ce).2 bs).1 bs
          = (R ++ [regionOf a b]) ++ regionsOf (runAlloc ce (allocate p b ce).2 bs).1 bs := by
        simp
      rw [hassoc]
      have hnew := allocate_new_region p b ce hp a hr
      refine ih (allocate p b ce).2 (R ++ [regionOf a b]) hp2 ?_ ?_
      · intro r hrm
        rcases List.mem_append.1 hrm with hrm | hrm
        · exact regOk_allocate p b ce hp r (hR r hrm)
        · rw [List.mem_singleton.1 hrm]
          exact hnew.1
      · rw [List.pairwise_append]
        refine ⟨hpw, by simp, ?_⟩
        intro r hrm s hsm
        rw [List.mem_singleton.1 hsm]
        exact hnew.2 r (hR r hrm)

/-! ### Remaining helper lemmas -/

theorem regionsOf_offsets (bs : List Nat) :
    ∀ w, regionsOf ((offsets w bs).map fun o => (some (0, o) : Option Addr)) bs
      = ((offsets w bs).zip bs).map fun ob =>
          ((0 : Nat), wordSize * ob.1, wordSize * slots ob.2) := by
  induction bs with
  | nil => intro w; rfl
  | cons b bs ih =>
    intro w
    rw [offsets, List.map_cons]
    have hstep : regionsOf
          ((some (0, w) : Option Addr)
            :: (offsets (w + slots b) bs).map fun o => (some (0, o) : Option Addr))
          (b :: bs)
        = regionOf (0, w) b
          :: regionsOf ((offsets (w + slots b) bs).map fun o => (some (0, o) : Option Addr)) bs := by
      unfold regionsOf
      rw [List.zip_cons_cons, List.filterMap_cons]
      rfl
    rw [hstep, ih, List.zip_cons_cons, List.map_cons]
    rfl

/-- A request whose slot count is zero always succeeds and is a complete
no-op on the state. -/
theorem allocate_of_slots_zero (p : Pool) (b : Nat) (ce : Bool) (hp : PoolInv p)
    (hz : slots b = 0) :
    allocate p b ce = (some (p.index, (curChunk p).wmark), p) := by
  have hw := (curChunk_ok p hp).1
  have hfit : (curChunk p).wmark + slots b ≤ (curChunk p).size := by
    rw [hz]
    omega
  rw [allocate_fit p b ce hp hfit]
  have hc : (⟨(curChunk p).wmark + slots b, (curChunk p).size⟩ : Chunk) = curChunk p := by
    rw [hz, Nat.add_zero]
  rw [hc, set_curChunk p hp.1]

/-! ### Claims -/

/-- C1 counterexample: with pool_size = 128 bytes and can_expand = false,
the third call `allocate(8)` of Scenario A does NOT return null on the
code: the constructor already padded the initial chunk far beyond 16
slots, so the request succeeds. -/
theorem scenarioA_claim_false :
    (allocate ((allocate ((allocate (mkPool 128) 64 false).2) 64 false).2) 8 false).1
      ≠ none := by decide

/-- C1 (amended): with pool_size = 128 bytes and can_expand = false, the
fresh pool holds one chunk padded to the 65536-slot default minimum;
`allocate(64)` succeeds consuming 8 slots, a second `allocate(64)`
succeeds consuming 8 more (the chunk is far from full), and `allocate(8)`
also succeeds, consuming 1 slot. -/
theorem scenarioA_amended :
    mkPool 128 = ⟨[⟨0, 65536⟩], 0⟩ ∧
    allocate (mkPool 128) 64 false = (some (0, 0), ⟨[⟨8, 65536⟩], 0⟩) ∧
    allocate ⟨[⟨8, 65536⟩], 0⟩ 64 false = (some (0, 8), ⟨[⟨16, 65536⟩], 0⟩) ∧
    allocate ⟨[⟨16, 65536⟩], 0⟩ 8 false = (some (0, 16), ⟨[⟨17, 65536⟩], 0⟩) := by
  decide

/-- C2 counterexample: the requests [524288, 1, 1] on a pool with
pool_size = 524296 have total byte size 524290 ≤ 524296, yet per-request
word rounding makes their slot total exceed the initial chunk capacity,
so the arena ends with 2 chunks instead of 1. -/
theorem no_spurious_growth_claim_false :
    524288 + 1 + 1 ≤ 524296 ∧
    (runAlloc true (mkPool 524296) [524288, 1, 1]).2.chunks.length ≠ 1 := by decide

/-- C2 (amended): for every request sequence whose total word-rounded
slot count fits in the initial chunk capacity max(ceil(pool_size/8),
65536), the chunk count stays at 1 and every result is non-null, 8-byte
aligned, and disjoint from every other returned region. -/
theorem no_spurious_growth_amended (ce : Bool) (poolSize : Nat) (bs : List Nat)
    (h : (bs.map slots).sum ≤ max (slots poolSize) chunksize) :
    (runAlloc ce (mkPool poolSize) bs).2.chunks.length = 1 ∧
    (∀ r ∈ (runAlloc ce (mkPool poolSize) bs).1, r.isSome = true) ∧
    (∀ g ∈ regionsOf (runAlloc ce (mkPool poolSize) bs).1 bs, g.2.1 % wordSize = 0) ∧
    (regionsOf (runAlloc ce (mkPool poolSize) bs).1 bs).Pairwise RegDisjoint := by
  have hcap : max (slots poolSize) chunksize < 2 ^ 61 :=
    max_lt (slots_lt poolSize) chunksize_lt
  have hrun := runAlloc_single ce (max (slots poolSize) chunksize) bs hcap 0 (by omega)
  rw [mkPool_eq, hrun]
  refine ⟨rfl, ?_, ?_, ?_⟩
  · intro r hr
    rcases List.mem_map.1 hr with ⟨o, _, ho⟩
    rw [← ho]
    rfl
  · rw [regionsOf_offsets]
    intro g hg
    rcases List.mem_map.1 hg with ⟨ob, _, hob⟩
    rw [← hob]
    exact Nat.mul_mod_right wordSize ob.1
  · rw [regionsOf_offsets]
    rw [List.pairwise_map]
    refine (offsets_zip_pairwise bs 0).imp ?_
    intro x y hxy
    refine Or.inr (Or.inl ?_)
    show wordSize * x.1 + wordSize * slots x.2 ≤ wordSize * y.1
    rw [← Nat.mul_add]
    exact Nat.mul_le_mul_left wordSize hxy

/-- C2 amended witness at a concrete instance. -/
theorem no_spurious_growth_amended_witness :
    (([64, 64, 8].map slots).sum ≤ max (slots 128) chunksize) ∧
    ((runAlloc true (mkPool 128) [64, 64, 8]).2.chunks.length = 1 ∧
     (∀ r ∈ (runAlloc true (mkPool 128) [64, 64, 8]).1, r.isSome = true) ∧
     (∀ g ∈ regionsOf (runAlloc true (mkPool 128) [64, 64, 8]).1 [64, 64, 8],
        g.2.1 % wordSize = 0) ∧
     (regionsOf (runAlloc true (mkPool 128) [64, 64, 8]).1 [64, 64, 8]).Pairwise
        RegDisjoint) :=
  ⟨by decide, no_spurious_growth_amended true 128 [64, 64, 8] (by decide)⟩

/-- C3 counterexample: at the wrap-around byte count 2^64 − 1 the slot
count computed by `expand` wraps to 0, so the appended chunk has capacity
chunksize = 65536 instead of max(ceil(bytes/8), 65536). -/
theorem growth_sizing_claim_false :
    (expand (mkPool 128) (2 ^ 64 - 1)).chunks
      ≠ (mkPool 128).chunks
          ++ [⟨0, max ((2 ^ 64 - 1 + (wordSize - 1)) / wordSize) chunksize⟩] := by
  decide

/-- C3 (amended): for every requested byte count below the size_t wrap
point (bytes + 7 < 2^64), `expand` computes the slot count
n = ceil(bytes/8) = (bytes+7)/8, appends exactly one freshly allocated
chunk of capacity max(n, chunksize) with chunksize = 64*1024 slots, makes
that chunk current, and the new capacity covers the whole request, so a
single oversized request is satisfied by exactly one new chunk. -/
theorem growth_sizing_amended (p : Pool) (bytes : Nat)
    (h : bytes + (wordSize - 1) < U64) :
    slots bytes = (bytes + (wordSize - 1)) / wordSize ∧
    bytes ≤ wordSize * slots bytes ∧
    wordSize * slots bytes < bytes + wordSize ∧
    (expand p bytes).chunks = p.chunks ++ [⟨0, max (slots bytes) chunksize⟩] ∧
    (expand p bytes).chunks.length = p.chunks.length + 1 ∧
    (expand p bytes).index = (expand p bytes).chunks.length - 1 ∧
    slots bytes ≤ max (slots bytes) chunksize := by
  have h1 : slots bytes = (bytes + (wordSize - 1)) / wordSize := by
    unfold slots
    rw [Nat.mod_eq_of_lt h]
  refine ⟨h1, ?_, ?_, expand_chunks p bytes, ?_, ?_, le_max_left _ _⟩
  · rw [h1]
    unfold wordSize
    omega
  · rw [h1]
    unfold wordSize
    omega
  · rw [expand_chunks]
    simp
  · rw [expand_index, expand_chunks]
    simp

/-- C3 amended witness at a concrete instance. -/
theorem growth_sizing_amended_witness :
    (600000 + (wordSize - 1) < U64) ∧
    (slots 600000 = (600000 + (wordSize - 1)) / wordSize ∧
     600000 ≤ wordSize * slots 600000 ∧
     wordSize * slots 600000 < 600000 + wordSize ∧
     (expand (mkPool 128) 600000).chunks
       = (mkPool 128).chunks ++ [⟨0, max (slots 600000) chunksize⟩] ∧
     (expand (mkPool 128) 600000).chunks.length = (mkPool 128).chunks.length + 1 ∧
     (expand (mkPool 128) 600000).index = (expand (mkPool 128) 600000).chunks.length - 1 ∧
     slots 600000 ≤ max (slots 600000) chunksize) :=
  ⟨by decide, growth_sizing_amended (mkPool 128) 600000 (by decide)⟩

/-- C4 counterexample: with growth disallowed and the chunk filled to
65530 of 65536 slots, `allocate(64)` fails (needs 8 slots, 6 remain)
leaving the state unchanged, yet the subsequent request `allocate(8)` in
that same exhausted state succeeds, so not every subsequent request
returns null. -/
theorem exhaustion_claim_false :
    (curChunk exhaustedPool).size - (curChunk exhaustedPool).wmark < slots 64 ∧
    allocate exhaustedPool 64 false = (none, exhaustedPool) ∧
    (allocate exhaustedPool 8 false).1 ≠ none := by decide

/-- C4 (amended): whenever growth is disallowed and the current chunk
remaining capacity is below the required slot count, `allocate` returns
the null sentinel and leaves the whole pool state unchanged (no chunk
appended, no high-water mark moved); consequently every subsequent
request whose slot count also exceeds the remaining capacity — in
particular any repetition of the same request — returns null as well,
indefinitely. -/
theorem exhaustion_amended (p : Pool) (b : Nat) (hp : PoolInv p)
    (h : (curChunk p).size - (curChunk p).wmark < slots b) :
    allocate p b false = (none, p) ∧
    (∀ b2, (curChunk p).size - (curChunk p).wmark < slots b2 →
      allocate p b2 false = (none, p)) ∧
    (∀ bs, (∀ b2 ∈ bs, (curChunk p).size - (curChunk p).wmark < slots b2) →
      runAlloc false p bs = (bs.map fun _ => (none : Option Addr), p)) := by
  have hw := (curChunk_ok p hp).1
  have hone : ∀ b2, (curChunk p).size - (curChunk p).wmark < slots b2 →
      allocate p b2 false = (none, p) := by
    intro b2 h2
    exact allocate_noexpand p b2 hp (by omega)
  refine ⟨hone b h, hone, ?_⟩
  intro bs
  induction bs with
  | nil => intro _; rfl
  | cons b2 bs ih =>
    intro hall
    rw [runAlloc_cons, hone b2 (hall b2 (List.mem_cons_self b2 bs))]
    show ((none : Option Addr) :: (runAlloc false p bs).1, (runAlloc false p bs).2)
      = ((b2 :: bs).map fun _ => (none : Option Addr), p)
    rw [ih fun b3 h3 => hall b3 (List.mem_cons_of_mem b2 h3)]
    rfl

/-- C4 amended witness at a concrete instance. -/
theorem exhaustion_amended_witness :
    (PoolInv exhaustedPool ∧
      (curChunk exhaustedPool).size - (curChunk exhaustedPool).wmark < slots 64) ∧
    (allocate exhaustedPool 64 false = (none, exhaustedPool) ∧
     (∀ b2, (curChunk exhaustedPool).size - (curChunk exhaustedPool).wmark < slots b2 →
       allocate exhaustedPool b2 false = (none, exhaustedPool)) ∧
     (∀ bs, (∀ b2 ∈ bs,
        (curChunk exhaustedPool).size - (curChunk exhaustedPool).wmark < slots b2) →
       runAlloc false exhaustedPool bs
         = (bs.map fun _ => (none : Option Addr), exhaustedPool))) :=
  ⟨⟨by decide, by decide⟩, exhaustion_amended exhaustedPool 64 (by decide) (by decide)⟩

/-- C5 (confirmed): whenever a current chunk exists (the invariant keeps
`m_index` in range) and its remaining capacity is at least the required
slot count — the exact-fit case included — `allocate` returns the address
at the current high-water mark of the current chunk, advances that mark
by exactly the slot count, and leaves every other chunk unchanged. -/
theorem bump_allocation_correct (p : Pool) (b : Nat) (ce : Bool) (hp : PoolInv p)
    (hfit : slots b ≤ (curChunk p).size - (curChunk p).wmark) :
    allocate p b ce =
      (some (p.index, (curChunk p).wmark),
        ⟨p.chunks.set p.index ⟨(curChunk p).wmark + slots b, (curChunk p).size⟩,
          p.index⟩) ∧
    (∀ j, j ≠ p.index →
      (allocate p b ce).2.chunks.getD j emptyChunk = p.chunks.getD j emptyChunk) := by
  have hw := (curChunk_ok p hp).1
  have hfit2 : (curChunk p).wmark + slots b ≤ (curChunk p).size := by omega
  have h1 := allocate_fit p b ce hp hfit2
  refine ⟨h1, ?_⟩
  intro j hj
  rw [h1]
  show (p.chunks.set p.index _).getD j emptyChunk = _
  exact getD_set_ne _ fun hh => hj hh.symm

/-- C5 witness at a concrete instance. -/
theorem bump_allocation_correct_witness :
    (PoolInv (mkPool 128) ∧
      slots 64 ≤ (curChunk (mkPool 128)).size - (curChunk (mkPool 128)).wmark) ∧
    (allocate (mkPool 128) 64 false =
      (some ((mkPool 128).index, (curChunk (mkPool 128)).wmark),
        ⟨(mkPool 128).chunks.set (mkPool 128).index
            ⟨(curChunk (mkPool 128)).wmark + slots 64, (curChunk (mkPool 128)).size⟩,
          (mkPool 128).index⟩) ∧
     (∀ j, j ≠ (mkPool 128).index →
       (allocate (mkPool 128) 64 false).2.chunks.getD j emptyChunk
         = (mkPool 128).chunks.getD j emptyChunk)) :=
  ⟨⟨by decide, by decide⟩, bump_allocation_correct (mkPool 128) 64 false (by decide) (by decide)⟩

/-- C6 counterexample: on a pool with the default pool_size (2097152
bytes, hence a 262144-slot initial chunk), `allocate(70*1024)` fits in
the existing chunk: it returns non-null WITHOUT growth and the chunk
count stays 1, not 2. -/
theorem single_call_growth_claim_false :
    (allocate (mkPool defaultPoolSize) (70 * 1024) true).1 ≠ none ∧
    (allocate (mkPool defaultPoolSize) (70 * 1024) true).2.chunks.length = 1 := by
  decide

/-- C6 (amended): with growth permitted, a single request whose slot
count exceeds the initial chunk capacity max(ceil(pool_size/8), 65536)
(for the default pool_size that threshold is 2 MiB, not the 64-KiB
figure) succeeds in one call: it returns the start of one fresh chunk
sized exactly to the word-rounded request, and the arena ends with 2
chunks. -/
theorem single_call_growth_amended (poolSize bytes : Nat)
    (h : max (slots poolSize) chunksize < slots bytes) :
    allocate (mkPool poolSize) bytes true
      = (some (1, 0),
          ⟨[⟨0, max (slots poolSize) chunksize⟩, ⟨slots bytes, slots bytes⟩], 1⟩) ∧
    (allocate (mkPool poolSize) bytes true).2.chunks.length = 2 := by
  have hp := poolInv_mkPool poolSize
  have hcur : curChunk (mkPool poolSize) = ⟨0, max (slots poolSize) chunksize⟩ := rfl
  have hlack : (curChunk (mkPool poolSize)).size
      < (curChunk (mkPool poolSize)).wmark + slots bytes := by
    rw [hcur]
    show max (slots poolSize) chunksize < 0 + slots bytes
    omega
  have hcs : chunksize ≤ slots bytes := by
    have hle := le_max_right (slots poolSize) chunksize
    omega
  have hmax : max (slots bytes) chunksize = slots bytes := max_eq_left hcs
  have hg := allocate_grow (mkPool poolSize) bytes hp hlack
  rw [hmax] at hg
  rw [hg]
  exact ⟨rfl, rfl⟩

/-- C6 amended witness at a concrete instance (a 3-MiB request on the
default pool). -/
theorem single_call_growth_amended_witness :
    (max (slots defaultPoolSize) chunksize < slots 3145728) ∧
    (allocate (mkPool defaultPoolSize) 3145728 true
      = (some (1, 0),
          ⟨[⟨0, max (slots defaultPoolSize) chunksize⟩, ⟨slots 3145728, slots 3145728⟩],
            1⟩) ∧
     (allocate (mkPool defaultPoolSize) 3145728 true).2.chunks.length = 2) :=
  ⟨by decide, single_call_growth_amended defaultPoolSize 3145728 (by decide)⟩

/-- C7 (confirmed): every chunk of the arena satisfies
0 ≤ high-water mark ≤ capacity after construction, both `allocate` and
`expand` preserve the property, and the high-water mark of every
pre-existing chunk is monotonically non-decreasing across both
operations. -/
theorem chunk_invariant_preserved (p : Pool) (b : Nat) (ce : Bool) (hp : PoolInv p) :
    (∀ s, ∀ c ∈ (mkPool s).chunks, c.wmark ≤ c.size) ∧
    (∀ c ∈ (allocate p b ce).2.chunks, c.wmark ≤ c.size) ∧
    (∀ c ∈ (expand p b).chunks, c.wmark ≤ c.size) ∧
    (∀ i, i < p.chunks.length →
      (p.chunks.getD i emptyChunk).wmark
        ≤ ((allocate p b ce).2.chunks.getD i emptyChunk).wmark) ∧
    (∀ i, i < p.chunks.length →
      (p.chunks.getD i emptyChunk).wmark
        ≤ ((expand p b).chunks.getD i emptyChunk).wmark) := by
  refine ⟨?_, ?_, ?_, wmark_mono_allocate p b ce hp, wmark_mono_expand p b⟩
  · intro s c hc
    exact ((poolInv_mkPool s).2 c hc).1
  · intro c hc
    exact ((poolInv_allocate p b ce hp).2 c hc).1
  · intro c hc
    exact ((poolInv_expand p b hp.2).2 c hc).1

/-- C7 witness at a concrete instance. -/
theorem chunk_invariant_preserved_witness :
    PoolInv (mkPool 128) ∧
    ((∀ s, ∀ c ∈ (mkPool s).chunks, c.wmark ≤ c.size) ∧
     (∀ c ∈ (allocate (mkPool 128) 64 true).2.chunks, c.wmark ≤ c.size) ∧
     (∀ c ∈ (expand (mkPool 128) 64).chunks, c.wmark ≤ c.size) ∧
     (∀ i, i < (mkPool 128).chunks.length →
       ((mkPool 128).chunks.getD i emptyChunk).wmark
         ≤ ((allocate (mkPool 128) 64 true).2.chunks.getD i emptyChunk).wmark) ∧
     (∀ i, i < (mkPool 128).chunks.length →
       ((mkPool 128).chunks.getD i emptyChunk).wmark
         ≤ ((expand (mkPool 128) 64).chunks.getD i emptyChunk).wmark)) :=
  ⟨by decide, chunk_invariant_preserved (mkPool 128) 64 true (by decide)⟩

/-- C8 (confirmed): for every request sequence on one arena — growth
permitted or not — the regions of all successful allocations (each
spanning its word-rounded byte size inside its chunk buffer) are pairwise
non-overlapping. -/
theorem allocations_pairwise_disjoint (ce : Bool) (poolSize : Nat) (bs : List Nat) :
    (regionsOf (runAlloc ce (mkPool poolSize) bs).1 bs).Pairwise RegDisjoint := by
  have h := runAlloc_regions ce bs (mkPool poolSize) [] (poolInv_mkPool poolSize)
    (by intro r hr; cases hr) List.Pairwise.nil
  simpa using h

/-- C9 (confirmed): a request of 0 bytes is accepted: it returns the
non-null pointer at the current high-water mark while consuming zero
slots, and the pool state — high-water marks and chunk count included —
is completely unchanged. -/
theorem zero_byte_allocation (p : Pool) (ce : Bool) (hp : PoolInv p) :
    allocate p 0 ce = (some (p.index, (curChunk p).wmark), p) :=
  allocate_of_slots_zero p 0 ce hp rfl

/-- C9 witness at a concrete instance. -/
theorem zero_byte_allocation_witness :
    PoolInv (mkPool 128) ∧
    allocate (mkPool 128) 0 false
      = (some ((mkPool 128).index, (curChunk (mkPool 128)).wmark), mkPool 128) :=
  ⟨by decide, zero_byte_allocation (mkPool 128) false (by decide)⟩

/-- C10 (confirmed): for every byte count above 2^64 − 8 (and below 2^64,
the size_t range), the expression (bytes + 8 − 1) / 8 wraps modulo 2^64:
the computed slot count is 0, so the huge request behaves exactly like a
zero-slot request — on any well-formed pool it returns non-null and
leaves the state unchanged; in particular allocate(2^64 − 1) consumes 0
slots. -/
theorem slot_count_overflow (p : Pool) (bytes : Nat) (ce : Bool) (hp : PoolInv p)
    (h1 : U64 - wordSize < bytes) (h2 : bytes < U64) :
    slots bytes = 0 ∧
    allocate p bytes ce = (some (p.index, (curChunk p).wmark), p) := by
  have hz : slots bytes = 0 := by
    simp only [slots, U64, wordSize] at h1 h2 ⊢
    omega
  exact ⟨hz, allocate_of_slots_zero p bytes ce hp hz⟩

/-- C10 witness at the concrete input 2^64 − 1. -/
theorem slot_count_overflow_witness :
    (PoolInv (mkPool 128) ∧ U64 - wordSize < 2 ^ 64 - 1 ∧ 2 ^ 64 - 1 < U64) ∧
    (slots (2 ^ 64 - 1) = 0 ∧
     allocate (mkPool 128) (2 ^ 64 - 1) true
       = (some ((mkPool 128).index, (curChunk (mkPool 128)).wmark), mkPool 128)) :=
  ⟨⟨by decide, by decide, by decide⟩,
    slot_count_overflow (mkPool 128) (2 ^ 64 - 1) true (by decide) (by decide) (by decide)⟩

end Caliper
